import Mathlib

/-
Verification of the process-supervision engine in `src/process.rs`.

The development shallowly embeds the functions of that file:
  * `get_child_pids_recursive` / `kill_pstree_with_signal_impl` / `kill_pstree`
    (process-tree resolution and graceful/forced signalling),
  * the event-driven control loop of `command` (frames `Finished` /
    `Terminated` / `Stdout` / `Stderr` / `Error` consumed from one channel),
  * the coordinator of `command_pipe` (exit-code selection and the terminal
    `Terminated(code)` frame),
  * the two line-reading disciplines (`read_line`, which keeps the trailing
    terminator, versus tokio `Lines::next_line`, which strips it).

Machine integers: pids are `Nat`, exit codes are `Int`; none of the embedded
code paths overflow, so no modular reduction is required.
-/

namespace Bmart

/-- Process identifier, as in `sysinfo::Pid`. -/
abbrev Pid := Nat

/-- A snapshot of the system process table, as observed through
`sys.refresh_processes(); sys.processes()`: one entry per live process,
`(pid, parent pid)`; the parent is `none` when the kernel reports no parent
(`p.parent()` returned `None`). -/
abbrev ProcTable := List (Pid × Option Pid)

/-- The two signals the engine distinguishes: `SIGTERM` (graceful) and
`SIGKILL` (forced). -/
inductive Signal where
  | sigterm
  | sigkill
deriving DecidableEq, Repr

/-- The relation read off the process-table snapshot: `childOf sys p c` holds
when the snapshot lists `c` with parent `p` (the condition
`p.parent() == Some(pid)` in `get_child_pids_recursive`). -/
def childOf (sys : ProcTable) (p c : Pid) : Prop := (c, some p) ∈ sys

instance (sys : ProcTable) (p c : Pid) : Decidable (childOf sys p c) := by
  unfold childOf; infer_instance

/--
Embedding of `get_child_pids_recursive(pid, sys, acc)` (process.rs lines
90-99).  The Rust function scans every `(i, p)` of the table; whenever
`p.parent() == Some(pid)` it inserts `i` into the accumulator set `acc` and
recurses from `i` (re-scanning the full table).  The Rust recursion carries no
explicit bound and terminates precisely when the parent relation reachable
from `pid` is acyclic — which is always the case for a snapshot produced by a
real kernel; the embedding splits it into `gcprScan` (the scan of the table
at one nesting level, with `descend` the action taken on each matching child
AFTER it has been inserted — the Rust `acc.insert(*i)` happens before the
recursive call) and `gcpr`, which bounds the nesting depth by `fuel` so the
Lean function is total.
-/
def gcprScan (pid : Pid) (descend : Pid → Finset Pid → Finset Pid) :
    List (Pid × Option Pid) → Finset Pid → Finset Pid
  | [], acc => acc
  | (_, none) :: rest, acc => gcprScan pid descend rest acc
  | (cpid, some parent) :: rest, acc =>
      gcprScan pid descend rest
        (if parent = pid then descend cpid (insert cpid acc) else acc)

/-- One nesting level of `get_child_pids_recursive`: scan the whole table;
`fuel = 0` still inserts a matching child but cuts the deeper scan off. -/
def gcpr (sys : ProcTable) : Nat → Pid → Finset Pid → Finset Pid
  | 0, pid, acc => gcprScan pid (fun _ a => a) sys acc
  | fuel + 1, pid, acc => gcprScan pid (fun c a => gcpr sys fuel c a) sys acc

/-- Entry point of the resolver: the scan starts over the full table with the
given accumulator, exactly as `get_child_pids_recursive(pid, &sys, &mut acc)`
is called on a freshly refreshed `System`; nesting depth `sys.length` is
enough for every acyclic snapshot (proved below). -/
def get_child_pids_recursive (pid : Pid) (sys : ProcTable) (acc : Finset Pid) : Finset Pid :=
  gcpr sys sys.length pid acc

/--
Embedding of `kill_pstree_with_signal_impl` (process.rs lines 110-125):
refresh the table (modelled by the `sys` snapshot argument), insert the root
into the accumulated set when `kill_parent`, resolve all descendants into the
same set, and send `signal` into every member (`let _ = signal::kill(...)`:
delivery errors for already-gone pids are ignored, so the returned set is
exactly the set of pids the signal is addressed at).
-/
def kill_pstree_with_signal_impl (pid : Pid) (sys : ProcTable) (pids : Finset Pid)
    (_signal : Signal) (kill_parent : Bool) : Finset Pid :=
  get_child_pids_recursive pid sys (if kill_parent then insert pid pids else pids)

/-- Observable behaviour of one `kill_pstree` call: which pids were sent the
graceful signal, whether the grace-wait loop ran at all, and which pids were
sent the forced signal. -/
structure KillTrace where
  termTargets : Finset Pid
  sleptGrace : Bool
  killTargets : Finset Pid
deriving DecidableEq

/--
Embedding of `kill_pstree(pid, tki, kill_parent)` (process.rs lines 142-166).
`t1` is the process-table snapshot taken by the first
`kill_pstree_with_signal_impl` call and `t2` the snapshot taken by the second
(the table may change during the grace period).  With `tki = none` the signal
chosen up front is `SIGKILL` and the `if let Some(t)` block is skipped: a
single forced pass, no graceful signal, no sleeping.  With `tki = some _` the
first pass sends `SIGTERM`; if the resolved set is non-empty or `kill_parent`
holds, the grace loop runs (polling the root with `SIGTERM` at `SLEEP_STEP`
intervals — real-time behaviour not modelled further) and then the second
pass sends `SIGKILL`, passing the SAME `pids` set that already holds the
first snapshot (the set only ever grows: `HashSet::insert`).
-/
def kill_pstree (pid : Pid) (tki : Option Nat) (kill_parent : Bool)
    (t1 t2 : ProcTable) : KillTrace :=
  match tki with
  | none =>
      { termTargets := ∅
        sleptGrace := false
        killTargets := kill_pstree_with_signal_impl pid t1 ∅ .sigkill kill_parent }
  | some _ =>
      let pids1 := kill_pstree_with_signal_impl pid t1 ∅ .sigterm kill_parent
      if pids1 ≠ ∅ ∨ kill_parent = true then
        { termTargets := pids1
          sleptGrace := true
          killTargets := kill_pstree_with_signal_impl pid t2 pids1 .sigkill kill_parent }
      else
        { termTargets := pids1, sleptGrace := false, killTargets := ∅ }

/-- The tagged events of the `command` event channel (process.rs lines
168-175).  I/O errors are modelled by their message string. -/
inductive CommandFrame where
  | finished (code : Int)
  | terminated
  | stdout (line : String)
  | stderr (line : String)
  | error (e : String)
deriving DecidableEq, Repr

/-- Result record of `command` (process.rs lines 57-62); `CommandResult::new`
starts with no code and empty line vectors. -/
structure CommandResult where
  code : Option Int
  out : List String
  err : List String
deriving DecidableEq, Repr

/-- Embedding of `CommandResult::new()`. -/
def CommandResult.new : CommandResult := { code := none, out := [], err := [] }

/-- Static shape of one `command` invocation as far as the control loop is
concerned: whether `child.id()` returned a pid (then the timeout guard task
exists and its pid is known) and whether an input payload was supplied (then
the stdin writer task exists). -/
structure LoopCfg where
  ppid : Option Pid
  hasStdin : Bool
deriving DecidableEq, Repr

/-- The task-management effects the control loop performs, in order.  The
vocabulary includes `killTree` because the `Error` arm of the source
constructs a `kill_pstree` future; the semantics below shows whether that
action is ever actually performed. -/
inductive Action where
  | abortRunner
  | abortGuard
  | abortStdin
  | abortStdoutReader
  | abortStderrReader
  | killTree (pid : Pid)
deriving DecidableEq, Repr

/-- Embedding of the wait task (process.rs lines 271-283): on a successful
wait with a real exit code it sends `Finished(code)`; when the child was
killed by a signal (`v.code()` is `None`) it sleeps the full `timeout` and
then sends `Finished(-15)` — a synthesized numeric code (the sleep gives the
guard's `Terminated` frame priority whenever the guard task exists); a wait
failure becomes `Error`.  `status` is `.ok (some c)` for a natural exit with
code `c`, `.ok none` for a signal death, `.error e` for a failed wait. -/
def runnerFrame (status : Except String (Option Int)) : CommandFrame :=
  match status with
  | .ok (some c) => .finished c
  | .ok none => .finished (-15)
  | .error e => .error e

/-- Embedding of the inner drain loop of the `Finished` arm (process.rs lines
336-342): keep receiving until the channel reports no more producers,
appending `Stdout`/`Stderr` payloads and ignoring every other frame
(the catch-all match arm that does nothing). -/
def finishReading : List CommandFrame → CommandResult → CommandResult
  | [], res => res
  | .stdout v :: rest, res => finishReading rest { res with out := res.out ++ [v] }
  | .stderr v :: rest, res => finishReading rest { res with err := res.err ++ [v] }
  | _ :: rest, res => finishReading rest res

/--
Embedding of the control loop of `command` (process.rs lines 328-377).  The
argument list is the sequence of frames the bounded channel delivers before
all senders drop (the loop ends on `Err` from `rx.recv()` when the channel
closes).  The returned action list records the task aborts the executed arm
performs, in program order:
  * `Finished(code)`: abort the guard if it exists, set the code, drain the
    rest of the channel for line frames, return `Ok`;
  * `Terminated`: abort the wait task, the stdin writer if present and both
    readers, return `Ok` with whatever was accumulated (the guard itself has
    already completed — it sent this frame — so it is not aborted);
  * `Error(e)`: abort the wait task, guard, stdin writer and both readers and
    return `Err(e)`.  The source then evaluates
    `ppid.map(..)` wrapping an `async move` block that calls `kill_pstree`
    as a bare expression statement: the future this builds is neither spawned
    nor awaited, and a Rust future that is never polled runs none of its
    body, so no `killTree` action is performed;
  * `Stdout`/`Stderr`: append the line and continue.
-/
def commandLoop (cfg : LoopCfg) : List CommandFrame → CommandResult →
    Except String CommandResult × List Action
  | [], res => (.ok res, [])
  | .finished code :: rest, res =>
      (.ok (finishReading rest { res with code := some code }),
       if cfg.ppid.isSome then [.abortGuard] else [])
  | .terminated :: _, res =>
      (.ok res,
       [.abortRunner] ++ (if cfg.hasStdin then [.abortStdin] else [])
         ++ [.abortStdoutReader, .abortStderrReader])
  | .error e :: _, _ =>
      (.error e,
       [.abortRunner] ++ (if cfg.ppid.isSome then [.abortGuard] else [])
         ++ (if cfg.hasStdin then [.abortStdin] else [])
         ++ [.abortStdoutReader, .abortStderrReader])
  | .stdout v :: rest, res => commandLoop cfg rest { res with out := res.out ++ [v] }
  | .stderr v :: rest, res => commandLoop cfg rest { res with err := res.err ++ [v] }

/-- Stdout payloads of a frame list, in order. -/
def stdoutLines : List CommandFrame → List String
  | [] => []
  | .stdout v :: rest => v :: stdoutLines rest
  | _ :: rest => stdoutLines rest

/-- Stderr payloads of a frame list, in order. -/
def stderrLines : List CommandFrame → List String
  | [] => []
  | .stderr v :: rest => v :: stderrLines rest
  | _ :: rest => stderrLines rest

/-- Frames that carry an output line. -/
def isLineFrame : CommandFrame → Bool
  | .stdout _ => true
  | .stderr _ => true
  | _ => false

/-- Frames the control loop treats as terminal. -/
def isTerminalFrame : CommandFrame → Bool
  | .finished _ => true
  | .terminated => true
  | .error _ => true
  | _ => false

/-- Remove every terminal frame that sits behind the first one; line frames
are kept everywhere. -/
def dropLaterTerminals : List CommandFrame → List CommandFrame
  | [] => []
  | f :: rest =>
      if isTerminalFrame f then f :: rest.filter (fun g => !isTerminalFrame g)
      else f :: dropLaterTerminals rest

/-- Events `command_pipe` hands to its caller (process.rs lines 380-385);
line payloads are kept as raw character lists because the pipe variant keeps
line terminators. -/
inductive CommandPipeOutput where
  | stdout (line : List Char)
  | stderr (line : List Char)
  | terminated (code : Int)
deriving DecidableEq, Repr

/-- Embedding of the exit-code selection of the `command_pipe` coordinator
(process.rs lines 484-489): `let mut exit_code = -99;` is overwritten only
when `child.wait()` succeeds AND the status carries a code.  `status` is
`none` when the wait itself failed, `some none` when the child was killed by
a signal (no exit code), `some (some c)` for a natural exit with code `c`. -/
def pipeExitCode (status : Option (Option Int)) : Int :=
  match status with
  | some (some code) => code
  | _ => -99

/-- The terminal frame `command_pipe` sends after the `select!`: always a
numeric `Terminated(code)`. -/
def pipeTerminalFrame (status : Option (Option Int)) : CommandPipeOutput :=
  .terminated (pipeExitCode status)

/-- Stdout payloads of a pipe event trace, in order. -/
def pipeOutProj : List CommandPipeOutput → List (List Char)
  | [] => []
  | .stdout l :: rest => l :: pipeOutProj rest
  | _ :: rest => pipeOutProj rest

/-- Stderr payloads of a pipe event trace, in order. -/
def pipeErrProj : List CommandPipeOutput → List (List Char)
  | [] => []
  | .stderr l :: rest => l :: pipeErrProj rest
  | _ :: rest => pipeErrProj rest

/-- Terminal pipe events. -/
def isTerminatedEvt : CommandPipeOutput → Bool
  | .terminated _ => true
  | _ => false

/--
Admissible event traces of the `command_pipe` back end (process.rs lines
447-500) for a child whose stdout produces `outLines`, whose stderr produces
`errLines`, and whose wait yields the numeric `code` computed at line 484.
The three producers are: the stdout reader task (sends its lines in order,
then completes), the stderr reader task (likewise), and the coordinator,
which after `child.wait()` suspends on `tokio::select!(_ = stderr_handle,
_ = stdout_handle)` — resuming as soon as the FIRST of the two reader tasks
completes — and then sends `Terminated(code)`.  Dropping the other
`JoinHandle` does not cancel its task, so that reader keeps sending lines
afterwards.  A trace is hence admissible when: per-stream projections equal
the produced lines in order, exactly one `Terminated` frame occurs and it
carries `code`, and at the point it occurs at least one of the two streams
has already been sent completely.
-/
def pipeTraceAdmissible (outLines errLines : List (List Char)) (code : Int)
    (trace : List CommandPipeOutput) : Prop :=
  pipeOutProj trace = outLines ∧ pipeErrProj trace = errLines ∧
    trace.filter isTerminatedEvt = [.terminated code] ∧
    (pipeOutProj (trace.takeWhile (fun e => !isTerminatedEvt e)) = outLines ∨
      pipeErrProj (trace.takeWhile (fun e => !isTerminatedEvt e)) = errLines)

instance (outLines errLines : List (List Char)) (code : Int)
    (trace : List CommandPipeOutput) :
    Decidable (pipeTraceAdmissible outLines errLines code trace) := by
  unfold pipeTraceAdmissible; infer_instance

/-- Embedding of `BufRead::read_line` on a character stream: consume up to
and including the first newline; at end of input return whatever remains
(possibly nothing).  Returns the line read and the rest of the stream. -/
def readLine : List Char → List Char × List Char
  | [] => ([], [])
  | c :: rest =>
      if c = '\n' then ([c], rest)
      else (c :: (readLine rest).1, (readLine rest).2)

/-- Embedding of the reader loops of `command_pipe` (process.rs lines
450-464 and 468-482): repeatedly `read_line`, stop when the line comes back
empty (end of input), otherwise send the line EXACTLY as read — terminator
included — and clear the buffer.  Each successful `read_line` consumes at
least one character, so `s.length + 1` iterations always reach end of input;
`fuel` makes that explicit. -/
def pipeLinesFuel : Nat → List Char → List (List Char)
  | 0, _ => []
  | fuel + 1, s =>
      match readLine s with
      | ([], _) => []
      | (c :: l, rest) => (c :: l) :: pipeLinesFuel fuel rest

/-- The lines a `command_pipe` reader task sends for stream contents `s`. -/
def pipeLines (s : List Char) : List (List Char) :=
  pipeLinesFuel (s.length + 1) s

/-- Embedding of the terminator stripping performed by tokio
`Lines::next_line` (used by `command`, process.rs lines 258 and 265, via
`BufReader::new(..).lines()`): pop a trailing newline, and then a trailing
carriage return only if a newline was popped. -/
def stripLineEnding (l : List Char) : List Char :=
  if l.getLast? = some '\n' then
    let l1 := l.dropLast
    if l1.getLast? = some '\r' then l1.dropLast else l1
  else l

/-- Embedding of the reader loops of `command` (process.rs lines 305-315 and
316-326): `next_line()` is `read_line` followed by terminator stripping; the
loop ends when `read_line` comes back empty (then `next_line` is `None`). -/
def commandLinesFuel : Nat → List Char → List (List Char)
  | 0, _ => []
  | fuel + 1, s =>
      match readLine s with
      | ([], _) => []
      | (c :: l, rest) => stripLineEnding (c :: l) :: commandLinesFuel fuel rest

/-- The lines a `command` reader task sends for stream contents `s`. -/
def commandLines (s : List Char) : List (List Char) :=
  commandLinesFuel (s.length + 1) s

/-! Lemmas about the process-tree resolver. -/

theorem gcprScan_subset {descend : Pid → Finset Pid → Finset Pid}
    (hdesc : ∀ c a, a ⊆ descend c a) (pid : Pid) :
    ∀ (l : List (Pid × Option Pid)) (acc : Finset Pid), acc ⊆ gcprScan pid descend l acc := by
  intro l
  induction l with
  | nil => intro acc; simp [gcprScan]
  | cons e rest ih =>
      intro acc
      obtain ⟨cpid, pp⟩ := e
      cases pp with
      | none => simpa [gcprScan] using ih acc
      | some parent =>
          by_cases h : parent = pid
          · simp only [gcprScan, if_pos h]
            exact subset_trans (subset_trans (Finset.subset_insert _ _) (hdesc _ _)) (ih _)
          · simpa [gcprScan, h] using ih acc

theorem gcpr_subset {sys : ProcTable} :
    ∀ (fuel : Nat) (pid : Pid) (acc : Finset Pid), acc ⊆ gcpr sys fuel pid acc := by
  intro fuel
  induction fuel with
  | zero => intro pid acc; exact gcprScan_subset (fun _ _ => subset_rfl) pid sys acc
  | succ f ih => intro pid acc; exact gcprScan_subset (fun c a => ih c a) pid sys acc

theorem gcprScan_union {descend : Pid → Finset Pid → Finset Pid}
    (hdesc : ∀ c a, descend c a = a ∪ descend c ∅) (pid : Pid) :
    ∀ (l : List (Pid × Option Pid)) (acc : Finset Pid),
      gcprScan pid descend l acc = acc ∪ gcprScan pid descend l ∅ := by
  intro l
  induction l with
  | nil => intro acc; simp [gcprScan]
  | cons e rest ih =>
      intro acc
      obtain ⟨cpid, pp⟩ := e
      cases pp with
      | none => simp only [gcprScan]; exact ih acc
      | some parent =>
          by_cases h : parent = pid
          · simp only [gcprScan, if_pos h]
            rw [ih (descend cpid (insert cpid acc)), ih (descend cpid (insert cpid ∅)),
              hdesc cpid (insert cpid acc), hdesc cpid (insert cpid ∅)]
            ext z; simp; tauto
          · simp only [gcprScan, if_neg h]; exact ih acc

theorem gcpr_union {sys : ProcTable} :
    ∀ (fuel : Nat) (pid : Pid) (acc : Finset Pid),
      gcpr sys fuel pid acc = acc ∪ gcpr sys fuel pid ∅ := by
  intro fuel
  induction fuel with
  | zero =>
      intro pid acc
      exact gcprScan_union (fun _ a => by simp) pid sys acc
  | succ f ih =>
      intro pid acc
      exact gcprScan_union (fun c a => ih c a) pid sys acc

theorem gcprScan_sound {sys : ProcTable} {descend : Pid → Finset Pid → Finset Pid} (pid : Pid)
    (hdesc : ∀ c a x, x ∈ descend c a → x ∈ a ∨ Relation.TransGen (childOf sys) c x) :
    ∀ (l : List (Pid × Option Pid)), (∀ e ∈ l, e ∈ sys) →
      ∀ (acc : Finset Pid) (x : Pid), x ∈ gcprScan pid descend l acc →
        x ∈ acc ∨ Relation.TransGen (childOf sys) pid x := by
  intro l
  induction l with
  | nil => intro _ acc x hx; left; simpa [gcprScan] using hx
  | cons e rest ih =>
      intro hl acc x hx
      obtain ⟨cpid, pp⟩ := e
      have hrest : ∀ e ∈ rest, e ∈ sys := fun e he => hl e (List.mem_cons_of_mem _ he)
      cases pp with
      | none => exact ih hrest acc x (by simpa [gcprScan] using hx)
      | some parent =>
          by_cases h : parent = pid
          · have hx1 : x ∈ gcprScan pid descend rest (descend cpid (insert cpid acc)) := by
              simpa [gcprScan, h] using hx
            have hentry : childOf sys pid cpid := by
              have hm := hl (cpid, some parent) (List.mem_cons_self _ _)
              rw [h] at hm
              exact hm
            rcases ih hrest _ x hx1 with h1 | h1
            · rcases hdesc cpid _ x h1 with h2 | h2
              · rcases Finset.mem_insert.mp h2 with h3 | h3
                · subst h3; exact Or.inr (Relation.TransGen.single hentry)
                · exact Or.inl h3
              · exact Or.inr (Relation.TransGen.head hentry h2)
            · exact Or.inr h1
          · exact ih hrest acc x (by simpa [gcprScan, h] using hx)

theorem gcpr_sound {sys : ProcTable} :
    ∀ (fuel : Nat) (pid : Pid) (acc : Finset Pid) (x : Pid), x ∈ gcpr sys fuel pid acc →
      x ∈ acc ∨ Relation.TransGen (childOf sys) pid x := by
  intro fuel
  induction fuel with
  | zero =>
      intro pid acc x hx
      exact gcprScan_sound pid (fun _ _ _ h => Or.inl h) sys (fun _ he => he) acc x hx
  | succ f ih =>
      intro pid acc x hx
      exact gcprScan_sound pid (fun c a y h => ih c a y h) sys (fun _ he => he) acc x hx

theorem gcprScan_mem_of_child {descend : Pid → Finset Pid → Finset Pid}
    (hdesc : ∀ c a, a ⊆ descend c a) (pid cpid : Pid) :
    ∀ (l : List (Pid × Option Pid)) (acc : Finset Pid), (cpid, some pid) ∈ l →
      cpid ∈ gcprScan pid descend l acc := by
  intro l
  induction l with
  | nil => intro acc h; simp at h
  | cons e rest ih =>
      intro acc h
      rcases List.mem_cons.mp h with h1 | h1
      · subst h1
        simp only [gcprScan, if_pos rfl]
        exact gcprScan_subset hdesc pid rest _ (hdesc _ _ (Finset.mem_insert_self _ _))
      · obtain ⟨c2, pp⟩ := e
        cases pp with
        | none => simp only [gcprScan]; exact ih _ h1
        | some p2 =>
            by_cases h2 : p2 = pid
            · simp only [gcprScan, if_pos h2]; exact ih _ h1
            · simp only [gcprScan, if_neg h2]; exact ih _ h1

theorem gcprScan_reaches {descend : Pid → Finset Pid → Finset Pid}
    (hdesc : ∀ c a, a ⊆ descend c a) (pid c x : Pid) :
    ∀ (l : List (Pid × Option Pid)) (acc : Finset Pid), (c, some pid) ∈ l →
      (∀ a, x ∈ descend c a) → x ∈ gcprScan pid descend l acc := by
  intro l
  induction l with
  | nil => intro acc h; simp at h
  | cons e rest ih =>
      intro acc h hx
      rcases List.mem_cons.mp h with h1 | h1
      · subst h1
        simp only [gcprScan, if_pos rfl]
        exact gcprScan_subset hdesc pid rest _ (hx _)
      · obtain ⟨c2, pp⟩ := e
        cases pp with
        | none => simp only [gcprScan]; exact ih _ h1 hx
        | some p2 =>
            by_cases h2 : p2 = pid
            · simp only [gcprScan, if_pos h2]; exact ih _ h1 hx
            · simp only [gcprScan, if_neg h2]; exact ih _ h1 hx

/-! Chains of the parent-child relation: a descendant is the endpoint of a
nonempty `List.Chain` of `childOf` links, and under acyclicity such a chain
never revisits a node, bounding its length by the table size. -/

theorem chain_getLast_transGen {α : Type} {r : α → α → Prop} :
    ∀ (l : List α) (a b : α), List.Chain r a l → l.getLast? = some b →
      Relation.TransGen r a b := by
  intro l
  induction l with
  | nil => intro a b _ h; simp at h
  | cons c rest ih =>
      intro a b hch hlast
      cases hch with
      | cons hac hrest =>
          cases rest with
          | nil =>
              have hb : c = b := by simpa using hlast
              subst hb
              exact Relation.TransGen.single hac
          | cons c2 rest2 =>
              have hlast2 : (c2 :: rest2).getLast? = some b := by
                simpa [List.getLast?_cons_cons] using hlast
              exact Relation.TransGen.head hac (ih c b hrest hlast2)

theorem transGen_exists_chain {α : Type} {r : α → α → Prop} {a b : α}
    (h : Relation.TransGen r a b) :
    ∃ l : List α, List.Chain r a l ∧ l.getLast? = some b := by
  induction h using Relation.TransGen.head_induction_on with
  | base hab => exact ⟨[b], List.Chain.cons hab List.Chain.nil, rfl⟩
  | ih hac _ ihc =>
      obtain ⟨l, hch, hlast⟩ := ihc
      refine ⟨_ :: l, List.Chain.cons hac hch, ?_⟩
      cases l with
      | nil => simp at hlast
      | cons d l2 => simpa [List.getLast?_cons_cons] using hlast

theorem not_nodup_decomp {α : Type} :
    ∀ (l : List α), ¬ l.Nodup → ∃ (l1 : List α) (y : α) (l2 l3 : List α),
      l = l1 ++ y :: (l2 ++ y :: l3) := by
  intro l
  induction l with
  | nil => intro h; exact absurd List.nodup_nil h
  | cons a t ih =>
      intro h
      by_cases hat : a ∈ t
      · obtain ⟨s, t2, rfl⟩ := List.append_of_mem hat
        exact ⟨[], a, s, t2, rfl⟩
      · have hnt : ¬ t.Nodup := by
          intro hnd
          exact h (List.nodup_cons.mpr ⟨hat, hnd⟩)
        obtain ⟨l1, y, l2, l3, rfl⟩ := ih hnt
        exact ⟨a :: l1, y, l2, l3, rfl⟩

theorem chain_nodup_of_acyclic {α : Type} {r : α → α → Prop}
    (hacyc : ∀ y, ¬ Relation.TransGen r y y) (l : List α) (p : α)
    (hch : List.Chain r p l) : l.Nodup := by
  by_contra hnd
  obtain ⟨l1, y, l2, l3, rfl⟩ := not_nodup_decomp l hnd
  have h1 := List.chain_split.mp hch
  have h2 := List.chain_split.mp h1.2
  exact hacyc y (chain_getLast_transGen _ _ _ h2.1 (by simp))

theorem chain_mem_pids {sys : ProcTable} :
    ∀ (l : List Pid) (p : Pid), List.Chain (childOf sys) p l →
      ∀ y ∈ l, y ∈ sys.map Prod.fst := by
  intro l
  induction l with
  | nil => intro p _ y hy; simp at hy
  | cons c rest ih =>
      intro p hch y hy
      cases hch with
      | cons hpc hrest =>
          rcases List.mem_cons.mp hy with rfl | hy2
          · exact List.mem_map.mpr ⟨(y, some p), hpc, rfl⟩
          · exact ih c hrest y hy2

theorem chain_length_le {sys : ProcTable}
    (hacyc : ∀ y, ¬ Relation.TransGen (childOf sys) y y) (l : List Pid) (p : Pid)
    (hch : List.Chain (childOf sys) p l) : l.length ≤ sys.length := by
  have hnd := chain_nodup_of_acyclic hacyc l p hch
  have hsub : l ⊆ sys.map Prod.fst := fun y hy => chain_mem_pids l p hch y hy
  have hle := (hnd.subperm hsub).length_le
  simpa using hle

theorem gcpr_complete {sys : ProcTable} :
    ∀ (l : List Pid) (pid x : Pid) (fuel : Nat),
      List.Chain (childOf sys) pid l → l.getLast? = some x → l.length ≤ fuel + 1 →
      ∀ acc : Finset Pid, x ∈ gcpr sys fuel pid acc := by
  intro l
  induction l with
  | nil => intro pid x fuel _ h _ _; simp at h
  | cons c rest ih =>
      intro pid x fuel hch hlast hlen acc
      cases hch with
      | cons hpc hrest =>
          cases rest with
          | nil =>
              have hx : c = x := by simpa using hlast
              subst hx
              cases fuel with
              | zero => exact gcprScan_mem_of_child (fun _ _ => subset_rfl) pid c sys acc hpc
              | succ f =>
                  exact gcprScan_mem_of_child (fun c2 a => gcpr_subset f c2 a) pid c sys acc hpc
          | cons c2 rest2 =>
              have hlast2 : (c2 :: rest2).getLast? = some x := by
                simpa [List.getLast?_cons_cons] using hlast
              cases fuel with
              | zero => simp at hlen
              | succ f =>
                  have hx : ∀ a : Finset Pid, x ∈ gcpr sys f c a :=
                    ih c x f hrest hlast2 (by simpa using Nat.succ_le_succ_iff.mp hlen)
                  exact gcprScan_reaches (fun c3 a => gcpr_subset f c3 a) pid c x sys acc hpc hx

/-- A decidable sufficient criterion for acyclicity of a snapshot: every
listed parent pid is numerically smaller than its child pid. -/
def parentLt (sys : ProcTable) : Bool :=
  sys.all fun e =>
    match e.2 with
    | some p => decide (p < e.1)
    | none => true

/-- Tables whose parent pids are numerically below their child pids are
acyclic.  (Real snapshots are acyclic because a parent starts before its
child; this criterion discharges the acyclicity hypothesis on concrete
witness tables by `decide`.) -/
theorem acyclic_of_parent_lt {sys : ProcTable} (hb : parentLt sys = true) :
    ∀ y, ¬ Relation.TransGen (childOf sys) y y := by
  have h : ∀ a b : Pid, childOf sys a b → a < b := by
    intro a b hab
    have he := List.all_eq_true.mp hb _ hab
    exact of_decide_eq_true he
  intro y hy
  have hlt : ∀ a b : Pid, Relation.TransGen (childOf sys) a b → a < b := by
    intro a b hab
    induction hab with
    | single h1 => exact h _ _ h1
    | tail _ h2 ih => exact Nat.lt_trans ih (h _ _ h2)
  exact lt_irrefl y (hlt y y hy)

/-- C8 — For every root pid and acyclic process-table snapshot, the set the
resolver builds (and `kill_pstree_with_signal_impl` signals, starting from an
empty accumulator) contains exactly the pids transitively reachable from the
root through parent-to-child links of the snapshot, plus the root itself
exactly when `kill_parent` is true.  Acyclicity is the condition under which
the unbounded Rust recursion terminates at all; every snapshot of a real
process table satisfies it. -/
theorem kill_set_exactly_descendants (sys : ProcTable) (root : Pid) (sig : Signal)
    (kp : Bool) (hacyc : ∀ y, ¬ Relation.TransGen (childOf sys) y y) (x : Pid) :
    x ∈ kill_pstree_with_signal_impl root sys ∅ sig kp ↔
      (Relation.TransGen (childOf sys) root x ∨ (kp = true ∧ x = root)) := by
  unfold kill_pstree_with_signal_impl get_child_pids_recursive
  constructor
  · intro hx
    rcases gcpr_sound sys.length root _ x hx with h1 | h1
    · cases kp with
      | false => simp at h1
      | true => exact Or.inr ⟨rfl, by simpa using h1⟩
    · exact Or.inl h1
  · intro hx
    rcases hx with h1 | ⟨hkp, hx2⟩
    · obtain ⟨l, hch, hlast⟩ := transGen_exists_chain h1
      have hlen : l.length ≤ sys.length + 1 :=
        Nat.le_succ_of_le (chain_length_le hacyc l root hch)
      exact gcpr_complete l root x sys.length hch hlast hlen _
    · subst hkp
      rw [hx2]
      exact gcpr_subset sys.length root _ (by simp)

/-- Witness for C8: the concrete table 1 → 2 → 3 with an unrelated process 9;
the kill set for root 1 with `kill_parent = true` is characterised by the
theorem. -/
theorem kill_set_exactly_descendants_witness :
    3 ∈ kill_pstree_with_signal_impl 1 [(2, some 1), (3, some 2), (9, some 7)] ∅
        Signal.sigkill true ↔
      (Relation.TransGen (childOf [(2, some 1), (3, some 2), (9, some 7)]) 1 3 ∨
        (true = true ∧ 3 = 1)) :=
  kill_set_exactly_descendants [(2, some 1), (3, some 2), (9, some 7)] 1 Signal.sigkill true
    (acyclic_of_parent_lt (by decide)) 3

/-! Lemmas about the control loop of `command`. -/

theorem finishReading_spec :
    ∀ (l : List CommandFrame) (res : CommandResult),
      finishReading l res =
        { code := res.code, out := res.out ++ stdoutLines l, err := res.err ++ stderrLines l } := by
  intro l
  induction l with
  | nil => intro res; simp [finishReading, stdoutLines, stderrLines]
  | cons f rest ih =>
      intro res
      cases f <;> simp [finishReading, stdoutLines, stderrLines, ih]

theorem commandLoop_lines :
    ∀ (pre : List CommandFrame), (∀ f ∈ pre, isLineFrame f = true) →
      ∀ (cfg : LoopCfg) (rest : List CommandFrame) (res : CommandResult),
        commandLoop cfg (pre ++ rest) res =
          commandLoop cfg rest
            { code := res.code, out := res.out ++ stdoutLines pre,
              err := res.err ++ stderrLines pre } := by
  intro pre
  induction pre with
  | nil => intro _ cfg rest res; simp [stdoutLines, stderrLines]
  | cons f pre2 ih =>
      intro hpre cfg rest res
      have hf := hpre f (List.mem_cons_self _ _)
      have hpre2 : ∀ g ∈ pre2, isLineFrame g = true :=
        fun g hg => hpre g (List.mem_cons_of_mem _ hg)
      cases f with
      | stdout v => simp [commandLoop, stdoutLines, stderrLines, ih hpre2]
      | stderr v => simp [commandLoop, stdoutLines, stderrLines, ih hpre2]
      | finished c => simp [isLineFrame] at hf
      | terminated => simp [isLineFrame] at hf
      | error e => simp [isLineFrame] at hf

theorem commandLoop_code_some :
    ∀ (frames : List CommandFrame) (cfg : LoopCfg) (res0 res : CommandResult)
      (acts : List Action) (c : Int),
      commandLoop cfg frames res0 = (Except.ok res, acts) → res.code = some c →
      res0.code = some c ∨ CommandFrame.finished c ∈ frames := by
  intro frames
  induction frames with
  | nil =>
      intro cfg res0 res acts c h hc
      have h1 := congrArg Prod.fst h
      simp only [commandLoop, Except.ok.injEq] at h1
      subst h1
      exact Or.inl hc
  | cons f rest ih =>
      intro cfg res0 res acts c h hc
      cases f with
      | finished k =>
          have h1 := congrArg Prod.fst h
          simp only [commandLoop, Except.ok.injEq] at h1
          rw [← h1, finishReading_spec] at hc
          simp only [Option.some.injEq] at hc
          subst hc
          exact Or.inr (List.mem_cons_self _ _)
      | terminated =>
          have h1 := congrArg Prod.fst h
          simp only [commandLoop, Except.ok.injEq] at h1
          subst h1
          exact Or.inl hc
      | error e =>
          have h1 := congrArg Prod.fst h
          simp only [commandLoop] at h1
          exact absurd h1 (by simp)
      | stdout v =>
          have h2 := ih cfg _ res acts c (by simpa [commandLoop] using h) hc
          simpa using h2
      | stderr v =>
          have h2 := ih cfg _ res acts c (by simpa [commandLoop] using h) hc
          simpa using h2

theorem finishReading_filter_terminals :
    ∀ (l : List CommandFrame) (res : CommandResult),
      finishReading (l.filter fun g => !isTerminalFrame g) res = finishReading l res := by
  intro l
  induction l with
  | nil => intro res; rfl
  | cons f rest ih =>
      intro res
      cases f with
      | finished c => exact ih res
      | terminated => exact ih res
      | error e => exact ih res
      | stdout v => exact ih _
      | stderr v => exact ih _

/-- C5 — When the control loop meets `Finished(code)` after a run of line
frames, it cancels the timeout guard (and nothing else), drains only the
`Stdout`/`Stderr` payloads of every frame still in the channel until the
channel is exhausted, and returns `Ok` with `code = Some code` and all
accumulated lines, in order. -/
theorem finished_branch_drains_lines (cfg : LoopCfg) (pre rest : List CommandFrame) (c : Int)
    (hpre : ∀ f ∈ pre, isLineFrame f = true) :
    commandLoop cfg (pre ++ CommandFrame.finished c :: rest) CommandResult.new =
      (Except.ok { code := some c,
                   out := stdoutLines pre ++ stdoutLines rest,
                   err := stderrLines pre ++ stderrLines rest },
       if cfg.ppid.isSome then [Action.abortGuard] else []) := by
  rw [commandLoop_lines pre hpre]
  simp [commandLoop, CommandResult.new, finishReading_spec]

/-- Witness for C5 at a concrete run: one stdout line before `Finished 0`,
one stderr line and a stale `Terminated` frame after it. -/
theorem finished_branch_drains_lines_witness :
    commandLoop { ppid := some 7, hasStdin := false }
        [CommandFrame.stdout "a", CommandFrame.finished 0, CommandFrame.stderr "b",
          CommandFrame.terminated] CommandResult.new =
      (Except.ok { code := some 0, out := ["a"], err := ["b"] }, [Action.abortGuard]) := by
  simpa [stdoutLines, stderrLines] using
    finished_branch_drains_lines { ppid := some 7, hasStdin := false }
      [CommandFrame.stdout "a"] [CommandFrame.stderr "b", CommandFrame.terminated] 0
      (by decide)

/-- C6 — When the control loop meets `Terminated` (deadline expiry) after a
run of line frames, it aborts the wait task, the stdin writer (when present)
and both readers, and returns `Ok` — not an error — with the lines
accumulated so far and no exit code. -/
theorem terminated_branch_returns_partial_ok (cfg : LoopCfg) (pre rest : List CommandFrame)
    (hpre : ∀ f ∈ pre, isLineFrame f = true) :
    commandLoop cfg (pre ++ CommandFrame.terminated :: rest) CommandResult.new =
      (Except.ok { code := none, out := stdoutLines pre, err := stderrLines pre },
       [Action.abortRunner] ++ (if cfg.hasStdin then [Action.abortStdin] else [])
         ++ [Action.abortStdoutReader, Action.abortStderrReader]) := by
  rw [commandLoop_lines pre hpre]
  simp [commandLoop, CommandResult.new]

/-- Witness for C6 at a concrete run with a stdin writer present. -/
theorem terminated_branch_returns_partial_ok_witness :
    commandLoop { ppid := some 7, hasStdin := true }
        [CommandFrame.stdout "a", CommandFrame.terminated, CommandFrame.stdout "late"]
        CommandResult.new =
      (Except.ok { code := none, out := ["a"], err := [] },
       [Action.abortRunner, Action.abortStdin, Action.abortStdoutReader,
        Action.abortStderrReader]) := by
  simpa [stdoutLines, stderrLines] using
    terminated_branch_returns_partial_ok { ppid := some 7, hasStdin := true }
      [CommandFrame.stdout "a"] [CommandFrame.stdout "late"] (by decide)

/-- C9 — Only the first terminal frame decides the outcome of the control
loop: deleting every terminal frame that sits behind the first one changes
neither the returned result nor the performed actions (later terminal frames
are ignored), and no execution of the loop ever performs a signal-escalation
(`killTree`) action after consuming its frames — aborts of the other tasks,
recorded at the single terminal frame, are all that can happen. -/
theorem terminal_event_unique_and_final (cfg : LoopCfg) (frames : List CommandFrame)
    (res : CommandResult) :
    commandLoop cfg (dropLaterTerminals frames) res = commandLoop cfg frames res ∧
      ∀ p : Pid, Action.killTree p ∉ (commandLoop cfg frames res).2 := by
  constructor
  · induction frames generalizing res with
    | nil => rfl
    | cons f rest ih =>
        cases f with
        | finished c =>
            exact congrArg
              (fun r => ((Except.ok r : Except String CommandResult),
                if cfg.ppid.isSome then [Action.abortGuard] else []))
              (finishReading_filter_terminals rest { res with code := some c })
        | terminated => rfl
        | error e => rfl
        | stdout v => exact ih _
        | stderr v => exact ih _
  · induction frames generalizing res with
    | nil => intro p hp; simp [commandLoop] at hp
    | cons f rest ih =>
        intro p hp
        cases f with
        | finished c =>
            rw [show commandLoop cfg (CommandFrame.finished c :: rest) res =
              (Except.ok (finishReading rest { res with code := some c }),
               if cfg.ppid.isSome then [Action.abortGuard] else []) from rfl] at hp
            by_cases h : cfg.ppid.isSome <;> simp [h] at hp
        | terminated =>
            rw [show commandLoop cfg (CommandFrame.terminated :: rest) res =
              (Except.ok res,
               [Action.abortRunner] ++ (if cfg.hasStdin then [Action.abortStdin] else [])
                 ++ [Action.abortStdoutReader, Action.abortStderrReader]) from rfl] at hp
            by_cases h : cfg.hasStdin <;> simp [h] at hp
        | error e =>
            rw [show commandLoop cfg (CommandFrame.error e :: rest) res =
              (Except.error e,
               [Action.abortRunner] ++ (if cfg.ppid.isSome then [Action.abortGuard] else [])
                 ++ (if cfg.hasStdin then [Action.abortStdin] else [])
                 ++ [Action.abortStdoutReader, Action.abortStderrReader]) from rfl] at hp
            by_cases h1 : cfg.ppid.isSome <;> by_cases h2 : cfg.hasStdin <;>
              simp [h1, h2] at hp
        | stdout v => exact ih _ p hp
        | stderr v => exact ih _ p hp

/-- C2 — What the `Error` arm of the control loop actually does, evaluated at
a concrete execution (guard and stdin writer both present, an `Error` frame
delivered first): it aborts the wait task, the guard, the stdin writer and
both readers and propagates the error to the caller — but it performs NO
kill action against the process tree: the source builds the `kill_pstree`
future inside `ppid.map(|pid| async move \x7b ... \x7d)` and drops it without
spawning or awaiting it, so the future never runs. -/
theorem error_branch_drops_kill_future :
    commandLoop { ppid := some 42, hasStdin := true } [CommandFrame.error "read failed"]
        CommandResult.new =
      (Except.error "read failed",
       [Action.abortRunner, Action.abortGuard, Action.abortStdin,
        Action.abortStdoutReader, Action.abortStderrReader]) ∧
      ∀ p : Pid, Action.killTree p ∉
        (commandLoop { ppid := some 42, hasStdin := true } [CommandFrame.error "read failed"]
            CommandResult.new).2 := by
  refine ⟨rfl, ?_⟩
  intro p hp
  simp [commandLoop] at hp

/-- C1 counterexample — `command_pipe` DOES report a synthesized numeric exit
code for a child that was killed rather than exiting normally: when
`child.wait()` yields a status without an exit code (`some none`, a signal
death), the terminal frame is `Terminated(-99)`, the sentinel initialised at
`let mut exit_code = -99;` — while the child never produced the code `-99`
itself. -/
theorem pipe_reports_sentinel_code_for_killed_child :
    pipeTerminalFrame (some none) = CommandPipeOutput.terminated (-99) ∧
      (some none : Option (Option Int)) ≠ some (some (-99)) :=
  ⟨rfl, by decide⟩

/-- C1 amended — Within `command`, the result's exit code is `Some c` only if
a `Finished c` frame was consumed from the channel (so an absent code does
mean the loop never saw a `Finished` frame); however the wait task
synthesizes `Finished(-15)` for a child killed by a signal (delivered only
when the guard task is absent or slower, because of the built-in sleep), and
`command_pipe` always reports a numeric code in its terminal frame — the
child's own code for a natural exit and the sentinel `-99` otherwise. -/
theorem command_code_only_from_finished_frame :
    (∀ (cfg : LoopCfg) (frames : List CommandFrame) (res : CommandResult)
        (acts : List Action) (c : Int),
        commandLoop cfg frames CommandResult.new = (Except.ok res, acts) →
        res.code = some c → CommandFrame.finished c ∈ frames) ∧
      runnerFrame (Except.ok none) = CommandFrame.finished (-15) ∧
      pipeExitCode (some none) = -99 ∧ pipeExitCode none = -99 ∧
      ∀ c : Int, pipeExitCode (some (some c)) = c := by
  refine ⟨?_, rfl, rfl, rfl, fun c => rfl⟩
  intro cfg frames res acts c h hc
  rcases commandLoop_code_some frames cfg CommandResult.new res acts c h hc with h1 | h1
  · simp [CommandResult.new] at h1
  · exact h1

/-- Witness for C1 (amended): applying the first component at a concrete
execution whose result code is `some 3`. -/
theorem command_code_only_from_finished_frame_witness :
    CommandFrame.finished 3 ∈ [CommandFrame.stdout "a", CommandFrame.finished 3] :=
  command_code_only_from_finished_frame.1 { ppid := none, hasStdin := false }
    [CommandFrame.stdout "a", CommandFrame.finished 3]
    { code := some 3, out := ["a"], err := [] } [] 3 rfl rfl

/-- C4 counterexample — The forced pass of `kill_pstree` is NOT restricted to
a freshly re-resolved set: with first snapshot `[(2, some 1)]` and second
snapshot `[]` (pid 2 exited during the grace period), pid 2 still receives
the forced signal, although a fresh resolution against the second snapshot
yields the empty set.  The `pids` set accumulated by the graceful pass is
passed, uncleared, to the second `kill_pstree_with_signal_impl` call. -/
theorem forced_pass_reuses_stale_snapshot :
    2 ∈ (kill_pstree 1 (some 5) false [(2, some 1)] []).killTargets ∧
      kill_pstree_with_signal_impl 1 [] ∅ Signal.sigkill false = ∅ := by
  decide

/-- C4 amended — Within one `kill_pstree` call with a grace period, whenever
the forced pass runs at all, its targets are the UNION of the graceful pass's
snapshot-based targets and a freshly re-resolved kill set against the second
snapshot: the re-resolution does happen, but the earlier snapshot is reused
as well because both passes share one accumulating set. -/
theorem kill_targets_union_of_snapshots (pid : Pid) (d : Nat) (kp : Bool)
    (t1 t2 : ProcTable)
    (h : (kill_pstree pid (some d) kp t1 t2).termTargets ≠ ∅ ∨ kp = true) :
    (kill_pstree pid (some d) kp t1 t2).killTargets =
      (kill_pstree pid (some d) kp t1 t2).termTargets ∪
        kill_pstree_with_signal_impl pid t2 ∅ Signal.sigkill kp := by
  have htt : (kill_pstree pid (some d) kp t1 t2).termTargets =
      kill_pstree_with_signal_impl pid t1 ∅ Signal.sigterm kp := by
    simp only [kill_pstree]
    split <;> rfl
  rw [htt] at h ⊢
  simp only [kill_pstree, if_pos h]
  unfold kill_pstree_with_signal_impl get_child_pids_recursive
  rw [gcpr_union, gcpr_union t2.length pid (if kp = true then insert pid ∅ else ∅)]
  cases kp with
  | false => simp
  | true =>
      ext z
      simp
      tauto

/-- Witness for C4 (amended) at the concrete stale-snapshot run. -/
theorem kill_targets_union_of_snapshots_witness :
    (kill_pstree 1 (some 5) true [(2, some 1)] []).killTargets =
      (kill_pstree 1 (some 5) true [(2, some 1)] []).termTargets ∪
        kill_pstree_with_signal_impl 1 [] ∅ Signal.sigkill true :=
  kill_targets_union_of_snapshots 1 5 true [(2, some 1)] [] (Or.inr rfl)

/-- C7 counterexample — With `tki = None`, `kill_pstree` sends NO graceful
signal at all: for the table `[(2, some 1)]` pid 2 is in the resolved set,
yet the set of graceful-signal recipients is empty — the single pass sends
the forced signal directly (`let signal = if tki.is_some() \x7b SIGTERM \x7d
else \x7b SIGKILL \x7d`), refuting the claim that the graceful signal is
first sent to every resolved id before skipping to the forced step. -/
theorem no_graceful_signal_when_tki_none :
    2 ∈ kill_pstree_with_signal_impl 1 [(2, some 1)] ∅ Signal.sigkill true ∧
      (kill_pstree 1 none true [(2, some 1)] []).termTargets = ∅ := by
  decide

/-- C7 amended — When the grace period is `None`, `kill_pstree` performs a
single pass that sends the FORCED signal to every id resolved from the
snapshot (nonexistent ids being ignored by `let _ = signal::kill(...)`),
with no graceful signal and no grace-period sleep; the graceful signal is
sent to every resolved id only when the grace period is `Some`. -/
theorem kill_pstree_none_single_forced_pass (pid : Pid) (kp : Bool) (t1 t2 : ProcTable) :
    (kill_pstree pid none kp t1 t2).termTargets = ∅ ∧
      (kill_pstree pid none kp t1 t2).sleptGrace = false ∧
      (kill_pstree pid none kp t1 t2).killTargets =
        kill_pstree_with_signal_impl pid t1 ∅ Signal.sigkill kp ∧
      ∀ d : Nat, (kill_pstree pid (some d) kp t1 t2).termTargets =
        kill_pstree_with_signal_impl pid t1 ∅ Signal.sigterm kp := by
  refine ⟨rfl, rfl, rfl, ?_⟩
  intro d
  simp only [kill_pstree]
  split <;> rfl

/-- C3 — A counterexample trace of the `command_pipe` back end: the child
writes the single line `x\n` to stderr and nothing to stdout and exits with
code 0; the stdout reader reaches end-of-input first, `tokio::select!`
resumes the coordinator, and `Terminated(0)` is sent BEFORE the stderr
reader delivers its line.  The trace is admissible for the embedded
semantics, yet the terminal frame is not the last event — refuting the claim
that every output line appears before the terminal marker. -/
theorem terminated_frame_can_precede_stderr_line :
    pipeTraceAdmissible [] [['x', '\n']] 0
        [CommandPipeOutput.terminated 0, CommandPipeOutput.stderr ['x', '\n']] ∧
      [CommandPipeOutput.terminated 0, CommandPipeOutput.stderr ['x', '\n']].getLast? ≠
        some (CommandPipeOutput.terminated 0) := by
  decide

/-! Lemmas about the two line-reading disciplines. -/

theorem readLine_append : ∀ s : List Char, (readLine s).1 ++ (readLine s).2 = s := by
  intro s
  induction s with
  | nil => rfl
  | cons c rest ih =>
      by_cases h : c = '\n'
      · simp [readLine, h]
      · simp [readLine, h, ih]

theorem readLine_fst_nil : ∀ s : List Char, (readLine s).1 = [] → s = [] := by
  intro s h
  cases s with
  | nil => rfl
  | cons c rest =>
      by_cases hc : c = '\n' <;> simp [readLine, hc] at h

theorem pipeLinesFuel_flatten :
    ∀ (fuel : Nat) (s : List Char), s.length < fuel →
      (pipeLinesFuel fuel s).flatten = s := by
  intro fuel
  induction fuel with
  | zero => intro s h; simp at h
  | succ f ih =>
      intro s h
      cases hr : readLine s with
      | mk l r =>
          cases l with
          | nil =>
              have hs : s = [] := readLine_fst_nil s (by rw [hr])
              subst hs
              simp [pipeLinesFuel, hr]
          | cons c l2 =>
              have happ : (c :: l2) ++ r = s := by
                have := readLine_append s
                rw [hr] at this
                exact this
              have hrlen : r.length < f := by
                have := congrArg List.length happ
                simp at this
                omega
              simp only [pipeLinesFuel, hr, List.flatten_cons]
              rw [ih r hrlen, happ]

theorem commandLinesFuel_map :
    ∀ (fuel : Nat) (s : List Char),
      commandLinesFuel fuel s = (pipeLinesFuel fuel s).map stripLineEnding := by
  intro fuel
  induction fuel with
  | zero => intro s; rfl
  | succ f ih =>
      intro s
      cases hr : readLine s with
      | mk l r =>
          cases l with
          | nil => simp [commandLinesFuel, pipeLinesFuel, hr]
          | cons c l2 => simp [commandLinesFuel, pipeLinesFuel, hr, ih r]

/-- C10 — The two entry points represent lines differently: concatenating
all lines a `command_pipe` reader sends reproduces the raw stream exactly
(so every line terminator the child wrote is retained in the delivered
`Stdout`/`Stderr` events), while the lines a `command` reader accumulates are
precisely those same lines with the trailing terminator (`\n`, or `\r\n`)
stripped. -/
theorem pipe_keeps_terminators_command_strips (s : List Char) :
    (pipeLines s).flatten = s ∧ commandLines s = (pipeLines s).map stripLineEnding :=
  ⟨pipeLinesFuel_flatten (s.length + 1) s (Nat.lt_succ_self _),
    commandLinesFuel_map (s.length + 1) s⟩

end Bmart
